import Mathlib

/-!
Verification of the modAlphaCipher library (a Vigenère-style cipher over the
33-letter Russian alphabet). The repository ships only the header
src/modAlphaCipher/modAlphaCipher.h, which fixes the alphabet constant, the
data members (alphaNum map, integer key vector), the deleted default
constructor and the cipher_error exception type; the method bodies
(constructor, getValidKey, getValidOpenText, getValidCipherText, the two
convert helpers, encrypt, decrypt) are declared there but their definitions
are not in the repository, so they are modelled from the specification.
Texts are modelled as lists of characters (std::wstring), integer sequences
as lists of naturals, and exceptions as an Except error channel.
-/

/-- The fixed alphabet string numAlpha from modAlphaCipher.h line 30:
the 33 Cyrillic majuscules А..Я including Ё, in order. -/
def numAlpha : List Char :=
  ['А', 'Б', 'В', 'Г', 'Д', 'Е', 'Ё', 'Ж', 'З', 'И', 'Й', 'К', 'Л', 'М', 'Н', 'О', 'П',
   'Р', 'С', 'Т', 'У', 'Ф', 'Х', 'Ц', 'Ч', 'Ш', 'Щ', 'Ъ', 'Ы', 'Ь', 'Э', 'Ю', 'Я']

/-- Modelled from the spec: the constructor body that fills the alphaNum
map (declared in modAlphaCipher.h line 31) is missing from the repository;
the spec requires a bijective letter-to-position mapping agreeing with the
ordered alphabet, i.e. each alphabet letter maps to its index in numAlpha. -/
def alphaNum (c : Char) : Nat := numAlpha.indexOf c

/-- Modelled from the spec: the uppercase normalization (towupper applied to
the Russian alphabet) used by the missing validator bodies. Lowercase
Cyrillic а..я (U+0430..U+044F) maps to А..Я by subtracting 0x20, and
ё (U+0451) maps to Ё (U+0401); every other character is unchanged. -/
def toWUpper (c : Char) : Char :=
  if h : 0x430 ≤ c.toNat ∧ c.toNat ≤ 0x44F then
    Char.ofNatAux (c.toNat - 0x20) (Or.inl (by omega))
  else if c.toNat = 0x451 then 'Ё'
  else c

/-- Modelled from the spec: the error signalling of cipher_error
(modAlphaCipher.h lines 108-128). The header carries a single exception
class whose throw sites are in the missing method bodies; the spec requires
a closed enumeration of three kinds, InvalidKey, InvalidPlainText and
InvalidCipherText, each carrying a human-readable message. -/
inductive CipherError where
  | invalidKey (msg : String)
  | invalidPlainText (msg : String)
  | invalidCipherText (msg : String)
deriving DecidableEq

/-- The human-readable message carried by a CipherError. -/
def CipherError.message : CipherError → String
  | .invalidKey m => m
  | .invalidPlainText m => m
  | .invalidCipherText m => m

/-- Modelled from the spec: the body of modAlphaCipher::getValidKey
(declared in modAlphaCipher.h line 54) is missing from the repository.
Per the spec it normalizes the key text to uppercase, rejects it with
InvalidKey when empty after normalization or containing a character not in
the alphabet, and otherwise returns the normalized text. -/
def getValidKey (s : List Char) : Except CipherError (List Char) :=
  let t := s.map toWUpper
  if t = [] then .error (.invalidKey "Empty key")
  else if _h : ∀ c ∈ t, c ∈ numAlpha then .ok t
  else .error (.invalidKey "Invalid key")

/-- Modelled from the spec: the body of modAlphaCipher::getValidOpenText
(declared in modAlphaCipher.h line 62) is missing from the repository.
Per the spec it uppercases the text and rejects it with InvalidPlainText
when empty or containing a character outside the alphabet. -/
def getValidOpenText (ws : List Char) : Except CipherError (List Char) :=
  let t := ws.map toWUpper
  if t = [] then .error (.invalidPlainText "Empty open text")
  else if _h : ∀ c ∈ t, c ∈ numAlpha then .ok t
  else .error (.invalidPlainText "Invalid open text")

/-- Modelled from the spec: the body of modAlphaCipher::getValidCipherText
(declared in modAlphaCipher.h line 70) is missing from the repository.
Per the spec it applies the same rejection rules as getValidOpenText but
signals InvalidCipherText. -/
def getValidCipherText (ws : List Char) : Except CipherError (List Char) :=
  let t := ws.map toWUpper
  if t = [] then .error (.invalidCipherText "Empty cipher text")
  else if _h : ∀ c ∈ t, c ∈ numAlpha then .ok t
  else .error (.invalidCipherText "Invalid cipher text")

/-- Modelled from the spec: the body of the string-to-indices overload of
modAlphaCipher::convert (declared in modAlphaCipher.h line 40) is missing
from the repository. Per the spec it maps each character to its alphabet
position via the fixed mapping. -/
def convert (s : List Char) : List Nat := s.map alphaNum

/-- Modelled from the spec: the body of the indices-to-string overload of
modAlphaCipher::convert (declared in modAlphaCipher.h line 47) is missing
from the repository. Per the spec it is the inverse mapping, using the
alphabet's ordered sequence as a lookup table by position. -/
def convertBack (v : List Nat) : List Char := v.map (fun i => numAlpha.getD i 'А')

/-- The cipher instance: it owns the key vector of alphabet indices
(modAlphaCipher.h line 32); the alphabet mapping is the shared constant
numAlpha / alphaNum. -/
structure modAlphaCipher where
  key : List Nat
deriving DecidableEq

/-- Modelled from the spec: the body of the constructor
modAlphaCipher::modAlphaCipher(skey) (declared in modAlphaCipher.h line 84)
is missing from the repository. Per the spec it validates the key text and
on success stores the index sequence of the normalized key; the
parameterless constructor is deleted (line 77), so this is the only way to
obtain an instance. -/
def mkModAlphaCipher (skey : List Char) : Except CipherError modAlphaCipher :=
  (getValidKey skey).map fun t => ⟨convert t⟩

/-- Modelled from the spec: the per-position loop of the missing
encrypt body, with explicit running index i: each value p is replaced by
(p + key[i mod key.length]) mod alphabet_size. -/
def encVals (key : List Nat) : Nat → List Nat → List Nat
  | _, [] => []
  | i, p :: ps =>
    (p + key.getD (i % key.length) 0) % numAlpha.length :: encVals key (i + 1) ps

/-- Modelled from the spec: the per-position loop of the missing
decrypt body, with explicit running index i: each value c is replaced by
(c - key[i mod key.length] + alphabet_size) mod alphabet_size, computed in
the integers since the subtraction can go negative. -/
def decVals (key : List Nat) : Nat → List Nat → List Nat
  | _, [] => []
  | i, c :: cs =>
    (((c : Int) - (key.getD (i % key.length) 0 : Int) + (numAlpha.length : Int))
      % (numAlpha.length : Int)).toNat :: decVals key (i + 1) cs

/-- Modelled from the spec: the body of modAlphaCipher::encrypt (declared
in modAlphaCipher.h line 91) is missing from the repository. Per the spec
it validates the open text, converts it to an index sequence, applies the
modular-addition transform with the cyclically repeated key, and converts
back to text. -/
def encrypt (self : modAlphaCipher) (open_text : List Char) : Except CipherError (List Char) :=
  (getValidOpenText open_text).map fun t => convertBack (encVals self.key 0 (convert t))

/-- Modelled from the spec: the body of modAlphaCipher::decrypt (declared
in modAlphaCipher.h line 98) is missing from the repository. Per the spec
it validates the cipher text, converts it to an index sequence, applies the
modular-subtraction transform with the modulus correction, and converts
back to text. -/
def decrypt (self : modAlphaCipher) (cipher_text : List Char) : Except CipherError (List Char) :=
  (getValidCipherText cipher_text).map fun t => convertBack (decVals self.key 0 (convert t))

theorem numAlpha_length : numAlpha.length = 33 := rfl

theorem toNat_ofNatAux (n : Nat) (h : n.isValidChar) : (Char.ofNatAux n h).toNat = n := rfl

theorem toWUpper_idem (c : Char) : toWUpper (toWUpper c) = toWUpper c := by
  unfold toWUpper
  split
  · next h =>
    have h2 : (Char.ofNatAux (c.toNat - 0x20) (Or.inl (by omega))).toNat = c.toNat - 0x20 := rfl
    split
    · next h3 => omega
    · split
      · next h3 => omega
      · rfl
  · split
    · next h3 =>
      simp only [show ('Ё').toNat = 0x401 from rfl]
      norm_num
    · rfl

theorem toWUpper_fix : ∀ c ∈ numAlpha, toWUpper c = c := by decide

theorem alphaNum_lt (c : Char) (h : c ∈ numAlpha) : alphaNum c < 33 := by
  have := List.indexOf_lt_length.mpr h
  simpa [alphaNum, numAlpha_length] using this

theorem alphaNum_getD : ∀ i, i < 33 → alphaNum (numAlpha.getD i 'А') = i := by decide

theorem getD_alphaNum : ∀ c ∈ numAlpha, numAlpha.getD (alphaNum c) 'А' = c := by decide

theorem getD_mem_numAlpha (i : Nat) (h : i < 33) : numAlpha.getD i 'А' ∈ numAlpha := by
  have h' : i < numAlpha.length := by rw [numAlpha_length]; exact h
  rw [List.getD_eq_getElem _ _ h']
  exact List.getElem_mem h'

theorem map_toWUpper_fix (l : List Char) (h : ∀ c ∈ l, c ∈ numAlpha) : l.map toWUpper = l := by
  have h2 : l.map toWUpper = l.map id :=
    List.map_congr_left fun a ha => toWUpper_fix a (h a ha)
  simpa using h2

theorem except_map_error_iff {ε α β : Type} (f : α → β) (x : Except ε α) (e : ε) :
    x.map f = .error e ↔ x = .error e := by
  cases x <;> simp [Except.map]

theorem except_map_ok_iff {ε α β : Type} (f : α → β) (x : Except ε α) (b : β) :
    x.map f = .ok b ↔ ∃ a, x = .ok a ∧ b = f a := by
  cases x <;> simp [Except.map, eq_comm]

theorem getValidOpenText_ok_iff (ws t : List Char) :
    getValidOpenText ws = .ok t ↔
      ws ≠ [] ∧ (∀ c ∈ ws, toWUpper c ∈ numAlpha) ∧ t = ws.map toWUpper := by
  simp only [getValidOpenText]
  split
  · next h =>
    rw [List.map_eq_nil_iff] at h
    simp [h]
  · next h =>
    have hne : ws ≠ [] := fun he => h (by simp [he])
    split
    · next hall =>
      rw [List.forall_mem_map] at hall
      simp only [Except.ok.injEq]
      constructor
      · intro he; exact ⟨hne, hall, he.symm⟩
      · intro ⟨_, _, ht⟩; exact ht.symm
    · next hall =>
      rw [List.forall_mem_map] at hall
      simp only [reduceCtorEq, false_iff, not_and]
      intro _ h2
      exact absurd h2 hall

theorem getValidKey_ok_iff (s t : List Char) :
    getValidKey s = .ok t ↔
      s ≠ [] ∧ (∀ c ∈ s, toWUpper c ∈ numAlpha) ∧ t = s.map toWUpper := by
  simp only [getValidKey]
  split
  · next h =>
    rw [List.map_eq_nil_iff] at h
    simp [h]
  · next h =>
    have hne : s ≠ [] := fun he => h (by simp [he])
    split
    · next hall =>
      rw [List.forall_mem_map] at hall
      simp only [Except.ok.injEq]
      constructor
      · intro he; exact ⟨hne, hall, he.symm⟩
      · intro ⟨_, _, ht⟩; exact ht.symm
    · next hall =>
      rw [List.forall_mem_map] at hall
      simp only [reduceCtorEq, false_iff, not_and]
      intro _ h2
      exact absurd h2 hall

theorem getValidCipherText_ok_iff (ws t : List Char) :
    getValidCipherText ws = .ok t ↔
      ws ≠ [] ∧ (∀ c ∈ ws, toWUpper c ∈ numAlpha) ∧ t = ws.map toWUpper := by
  simp only [getValidCipherText]
  split
  · next h =>
    rw [List.map_eq_nil_iff] at h
    simp [h]
  · next h =>
    have hne : ws ≠ [] := fun he => h (by simp [he])
    split
    · next hall =>
      rw [List.forall_mem_map] at hall
      simp only [Except.ok.injEq]
      constructor
      · intro he; exact ⟨hne, hall, he.symm⟩
      · intro ⟨_, _, ht⟩; exact ht.symm
    · next hall =>
      rw [List.forall_mem_map] at hall
      simp only [reduceCtorEq, false_iff, not_and]
      intro _ h2
      exact absurd h2 hall

theorem getValidKey_error_iff (s : List Char) (e : CipherError) :
    getValidKey s = .error e ↔
      ((s = [] ∧ e = .invalidKey "Empty key") ∨
       (s ≠ [] ∧ (∃ c ∈ s, toWUpper c ∉ numAlpha) ∧ e = .invalidKey "Invalid key")) := by
  simp only [getValidKey]
  split
  · next h =>
    rw [List.map_eq_nil_iff] at h
    simp [h, eq_comm]
  · next h =>
    have hne : s ≠ [] := fun he => h (by simp [he])
    split
    · next hall =>
      rw [List.forall_mem_map] at hall
      simp only [reduceCtorEq, false_iff]
      push_neg
      refine ⟨fun he _ => absurd he hne, fun _ hex _ => ?_⟩
      rcases hex with ⟨c, hc, hnotin⟩
      exact hnotin (hall c hc)
    · next hall =>
      rw [List.forall_mem_map] at hall
      push_neg at hall
      simp only [Except.error.injEq]
      constructor
      · intro he; exact Or.inr ⟨hne, hall, he.symm⟩
      · intro hcase
        rcases hcase with ⟨he, _⟩ | ⟨_, _, he⟩
        · exact absurd he hne
        · exact he.symm

theorem getValidOpenText_error_iff (ws : List Char) (e : CipherError) :
    getValidOpenText ws = .error e ↔
      ((ws = [] ∧ e = .invalidPlainText "Empty open text") ∨
       (ws ≠ [] ∧ (∃ c ∈ ws, toWUpper c ∉ numAlpha) ∧ e = .invalidPlainText "Invalid open text")) := by
  simp only [getValidOpenText]
  split
  · next h =>
    rw [List.map_eq_nil_iff] at h
    simp [h, eq_comm]
  · next h =>
    have hne : ws ≠ [] := fun he => h (by simp [he])
    split
    · next hall =>
      rw [List.forall_mem_map] at hall
      simp only [reduceCtorEq, false_iff]
      push_neg
      refine ⟨fun he _ => absurd he hne, fun _ hex _ => ?_⟩
      rcases hex with ⟨c, hc, hnotin⟩
      exact hnotin (hall c hc)
    · next hall =>
      rw [List.forall_mem_map] at hall
      push_neg at hall
      simp only [Except.error.injEq]
      constructor
      · intro he; exact Or.inr ⟨hne, hall, he.symm⟩
      · intro hcase
        rcases hcase with ⟨he, _⟩ | ⟨_, _, he⟩
        · exact absurd he hne
        · exact he.symm

theorem getValidCipherText_error_iff (ws : List Char) (e : CipherError) :
    getValidCipherText ws = .error e ↔
      ((ws = [] ∧ e = .invalidCipherText "Empty cipher text") ∨
       (ws ≠ [] ∧ (∃ c ∈ ws, toWUpper c ∉ numAlpha) ∧ e = .invalidCipherText "Invalid cipher text")) := by
  simp only [getValidCipherText]
  split
  · next h =>
    rw [List.map_eq_nil_iff] at h
    simp [h, eq_comm]
  · next h =>
    have hne : ws ≠ [] := fun he => h (by simp [he])
    split
    · next hall =>
      rw [List.forall_mem_map] at hall
      simp only [reduceCtorEq, false_iff]
      push_neg
      refine ⟨fun he _ => absurd he hne, fun _ hex _ => ?_⟩
      rcases hex with ⟨c, hc, hnotin⟩
      exact hnotin (hall c hc)
    · next hall =>
      rw [List.forall_mem_map] at hall
      push_neg at hall
      simp only [Except.error.injEq]
      constructor
      · intro he; exact Or.inr ⟨hne, hall, he.symm⟩
      · intro hcase
        rcases hcase with ⟨he, _⟩ | ⟨_, _, he⟩
        · exact absurd he hne
        · exact he.symm

theorem encVals_length (key : List Nat) (i : Nat) (v : List Nat) :
    (encVals key i v).length = v.length := by
  induction v generalizing i with
  | nil => rfl
  | cons p ps ih => simp [encVals, ih]

theorem decVals_length (key : List Nat) (i : Nat) (v : List Nat) :
    (decVals key i v).length = v.length := by
  induction v generalizing i with
  | nil => rfl
  | cons c cs ih => simp [decVals, ih]

theorem encVals_lt (key : List Nat) (i : Nat) (v : List Nat) :
    ∀ x ∈ encVals key i v, x < numAlpha.length := by
  induction v generalizing i with
  | nil => intro x hx; cases hx
  | cons p ps ih =>
    intro x hx
    simp only [encVals, List.mem_cons] at hx
    rcases hx with h | h
    · subst h
      exact Nat.mod_lt _ (by decide)
    · exact ih (i + 1) x h

theorem decVals_lt (key : List Nat) (i : Nat) (v : List Nat) :
    ∀ x ∈ decVals key i v, x < numAlpha.length := by
  induction v generalizing i with
  | nil => intro x hx; cases hx
  | cons c cs ih =>
    intro x hx
    simp only [decVals, List.mem_cons] at hx
    rcases hx with h | h
    · subst h
      simp only [numAlpha_length]
      omega
    · exact ih (i + 1) x h

theorem encVals_getD (key : List Nat) (v : List Nat) :
    ∀ (i n : Nat), n < v.length →
      (encVals key i v).getD n 0 =
        (v.getD n 0 + key.getD ((i + n) % key.length) 0) % numAlpha.length := by
  induction v with
  | nil => intro i n h; simp at h
  | cons p ps ih =>
    intro i n h
    cases n with
    | zero => simp [encVals]
    | succ n =>
      simp only [encVals, List.getD_cons_succ]
      rw [ih (i + 1) n (by simpa using h)]
      have he : i + 1 + n = i + (n + 1) := by omega
      rw [he]

theorem decVals_getD (key : List Nat) (v : List Nat) :
    ∀ (i n : Nat), n < v.length →
      (decVals key i v).getD n 0 =
        (((v.getD n 0 : Int) - (key.getD ((i + n) % key.length) 0 : Int)
          + (numAlpha.length : Int)) % (numAlpha.length : Int)).toNat := by
  induction v with
  | nil => intro i n h; simp at h
  | cons c cs ih =>
    intro i n h
    cases n with
    | zero => simp [decVals]
    | succ n =>
      simp only [decVals, List.getD_cons_succ]
      rw [ih (i + 1) n (by simpa using h)]
      have he : i + 1 + n = i + (n + 1) := by omega
      rw [he]

theorem decVals_encVals (key : List Nat) (hne : key ≠ []) (hk : ∀ k ∈ key, k < 33) :
    ∀ (i : Nat) (v : List Nat), (∀ p ∈ v, p < 33) →
      decVals key i (encVals key i v) = v := by
  intro i v
  induction v generalizing i with
  | nil => intro _; rfl
  | cons p ps ih =>
    intro hv
    have hlen : 0 < key.length := List.length_pos.mpr hne
    have hmod : i % key.length < key.length := Nat.mod_lt _ hlen
    have hkey : key.getD (i % key.length) 0 < 33 := by
      rw [List.getD_eq_getElem _ _ hmod]
      exact hk _ (List.getElem_mem hmod)
    have hp : p < 33 := hv p (List.mem_cons_self p ps)
    simp only [encVals, decVals, numAlpha_length, List.cons.injEq]
    refine ⟨by omega, ih (i + 1) fun q hq => hv q (List.mem_cons_of_mem p hq)⟩

theorem convert_length (s : List Char) : (convert s).length = s.length :=
  List.length_map s alphaNum

theorem convertBack_length (v : List Nat) : (convertBack v).length = v.length :=
  List.length_map v _

theorem convert_lt (s : List Char) (h : ∀ c ∈ s, c ∈ numAlpha) :
    ∀ x ∈ convert s, x < 33 := by
  intro x hx
  rcases List.mem_map.mp hx with ⟨c, hc, rfl⟩
  exact alphaNum_lt c (h c hc)

theorem convert_convertBack (v : List Nat) (h : ∀ x ∈ v, x < 33) :
    convert (convertBack v) = v := by
  simp only [convert, convertBack, List.map_map]
  have h2 : ∀ x ∈ v, (alphaNum ∘ fun i => numAlpha.getD i 'А') x = id x :=
    fun x hx => alphaNum_getD x (h x hx)
  rw [List.map_congr_left h2, List.map_id]

theorem convertBack_convert (s : List Char) (h : ∀ c ∈ s, c ∈ numAlpha) :
    convertBack (convert s) = s := by
  simp only [convert, convertBack, List.map_map]
  have h2 : ∀ c ∈ s, ((fun i => numAlpha.getD i 'А') ∘ alphaNum) c = id c :=
    fun c hc => getD_alphaNum c (h c hc)
  rw [List.map_congr_left h2, List.map_id]

theorem convertBack_mem (v : List Nat) (h : ∀ x ∈ v, x < 33) :
    ∀ c ∈ convertBack v, c ∈ numAlpha := by
  intro c hc
  rcases List.mem_map.mp hc with ⟨x, hx, rfl⟩
  exact getD_mem_numAlpha x (h x hx)

theorem convert_getD (s : List Char) (i : Nat) (h : i < s.length) :
    (convert s).getD i 0 = alphaNum (s.getD i 'А') := by
  have h2 : i < (convert s).length := by rw [convert_length]; exact h
  rw [List.getD_eq_getElem _ _ h2, List.getD_eq_getElem _ _ h]
  simp [convert]

theorem convertBack_getD (v : List Nat) (i : Nat) (h : i < v.length) :
    (convertBack v).getD i 'А' = numAlpha.getD (v.getD i 0) 'А' := by
  have h2 : i < (convertBack v).length := by rw [convertBack_length]; exact h
  rw [List.getD_eq_getElem _ _ h2, List.getD_eq_getElem _ _ h]
  simp [convertBack]

theorem mkModAlphaCipher_ok (skey : List Char) (ciph : modAlphaCipher)
    (h : mkModAlphaCipher skey = .ok ciph) :
    ciph.key = convert (skey.map toWUpper) ∧ ciph.key ≠ [] ∧ ∀ k ∈ ciph.key, k < 33 := by
  rcases (except_map_ok_iff _ _ _).mp h with ⟨t, ht, hciph⟩
  rcases (getValidKey_ok_iff _ _).mp ht with ⟨hne, hall, htval⟩
  subst htval
  have hkey : ciph.key = convert (skey.map toWUpper) := by rw [hciph]
  refine ⟨hkey, ?_, ?_⟩
  · rw [hkey]
    apply List.ne_nil_of_length_pos
    rw [convert_length, List.length_map]
    exact List.length_pos.mpr hne
  · rw [hkey]
    apply convert_lt
    intro c hc
    rcases List.mem_map.mp hc with ⟨a, ha, rfl⟩
    exact hall a ha

theorem encrypt_ok_of_valid (ciph : modAlphaCipher) (x : List Char)
    (hne : x ≠ []) (hx : ∀ c ∈ x, toWUpper c ∈ numAlpha) :
    encrypt ciph x = .ok (convertBack (encVals ciph.key 0 (convert (x.map toWUpper)))) := by
  have hv : getValidOpenText x = .ok (x.map toWUpper) :=
    (getValidOpenText_ok_iff _ _).mpr ⟨hne, hx, rfl⟩
  rw [encrypt, hv]
  rfl

/-- Claim C1: for every valid key and every non-empty text x whose
characters, after uppercasing, all belong to the 33-letter alphabet,
decrypting the encryption of x with the same cipher instance returns the
uppercase normalization of x. -/
theorem encrypt_decrypt_roundtrip (skey x : List Char) (ciph : modAlphaCipher)
    (hc : mkModAlphaCipher skey = .ok ciph)
    (hne : x ≠ []) (hx : ∀ c ∈ x, toWUpper c ∈ numAlpha) :
    ∃ s, encrypt ciph x = .ok s ∧ decrypt ciph s = .ok (x.map toWUpper) := by
  rcases mkModAlphaCipher_ok skey ciph hc with ⟨_, hkne, hklt⟩
  have htmem : ∀ c ∈ x.map toWUpper, c ∈ numAlpha := by
    intro c hcm
    rcases List.mem_map.mp hcm with ⟨a, ha, rfl⟩
    exact hx a ha
  have htne : x.map toWUpper ≠ [] := fun he => hne (List.map_eq_nil_iff.mp he)
  refine ⟨convertBack (encVals ciph.key 0 (convert (x.map toWUpper))),
    encrypt_ok_of_valid ciph x hne hx, ?_⟩
  have henclt : ∀ y ∈ encVals ciph.key 0 (convert (x.map toWUpper)), y < 33 := by
    intro y hy
    have h2 := encVals_lt ciph.key 0 (convert (x.map toWUpper)) y hy
    rwa [numAlpha_length] at h2
  have hsmem : ∀ c ∈ convertBack (encVals ciph.key 0 (convert (x.map toWUpper))), c ∈ numAlpha :=
    convertBack_mem _ henclt
  have hslen : (convertBack (encVals ciph.key 0 (convert (x.map toWUpper)))).length
      = (x.map toWUpper).length := by
    rw [convertBack_length, encVals_length, convert_length]
  have hsne : convertBack (encVals ciph.key 0 (convert (x.map toWUpper))) ≠ [] := by
    apply List.ne_nil_of_length_pos
    rw [hslen]
    exact List.length_pos.mpr htne
  have hvs : getValidCipherText (convertBack (encVals ciph.key 0 (convert (x.map toWUpper))))
      = .ok (convertBack (encVals ciph.key 0 (convert (x.map toWUpper)))) := by
    rw [getValidCipherText_ok_iff]
    refine ⟨hsne, ?_, (map_toWUpper_fix _ hsmem).symm⟩
    intro c hcm
    rw [toWUpper_fix c (hsmem c hcm)]
    exact hsmem c hcm
  rw [decrypt, hvs]
  have hconv : convert (convertBack (encVals ciph.key 0 (convert (x.map toWUpper))))
      = encVals ciph.key 0 (convert (x.map toWUpper)) := convert_convertBack _ henclt
  have hdec : decVals ciph.key 0 (encVals ciph.key 0 (convert (x.map toWUpper)))
      = convert (x.map toWUpper) :=
    decVals_encVals ciph.key hkne hklt 0 (convert (x.map toWUpper)) (convert_lt _ htmem)
  show Except.ok (convertBack (decVals ciph.key 0
    (convert (convertBack (encVals ciph.key 0 (convert (x.map toWUpper))))))) = _
  rw [hconv, hdec, convertBack_convert _ htmem]

/-- Witness for C1: the cipher built from key КЛЮЧ encrypts the lowercase
text текст and decrypting the result returns its uppercase form ТЕКСТ. -/
theorem encrypt_decrypt_roundtrip_witness :
    ∃ s, encrypt ⟨[11, 12, 31, 24]⟩ ['т', 'е', 'к', 'с', 'т'] = .ok s ∧
      decrypt ⟨[11, 12, 31, 24]⟩ s = .ok (['т', 'е', 'к', 'с', 'т'].map toWUpper) :=
  encrypt_decrypt_roundtrip ['К', 'Л', 'Ю', 'Ч'] ['т', 'е', 'к', 'с', 'т'] ⟨[11, 12, 31, 24]⟩
    (by rfl) (by decide) (by decide)

/-- Claim C2: encrypt converts the normalized text to its index sequence p
and, for every position i, the output character at i is the alphabet letter
at index (p[i] + key[i mod key.length]) mod 33, a key shorter than the text
repeating cyclically through key[i mod key.length]. -/
theorem encrypt_position_formula (ciph : modAlphaCipher) (x t s : List Char)
    (ht : getValidOpenText x = .ok t) (hs : encrypt ciph x = .ok s) :
    s.length = t.length ∧ ∀ i, i < t.length →
      s.getD i 'А' =
        numAlpha.getD (((convert t).getD i 0
          + ciph.key.getD (i % ciph.key.length) 0) % 33) 'А' := by
  rw [encrypt, ht] at hs
  have hs2 : Except.ok (convertBack (encVals ciph.key 0 (convert t))) = Except.ok s := hs
  have hsv : s = convertBack (encVals ciph.key 0 (convert t)) := (Except.ok.inj hs2).symm
  subst hsv
  constructor
  · rw [convertBack_length, encVals_length, convert_length]
  · intro i hi
    have hi2 : i < (encVals ciph.key 0 (convert t)).length := by
      rw [encVals_length, convert_length]
      exact hi
    rw [convertBack_getD _ _ hi2,
      encVals_getD ciph.key (convert t) 0 i (by rw [convert_length]; exact hi)]
    simp only [Nat.zero_add, numAlpha_length]

/-- Witness for C2: with the two-letter key АБ (indices 0 and 1) on the
six-letter text АБВГДЕ, the character at position 5 of the output АВВДДЁ is
the alphabet letter at index (p[5] + key[5 mod 2]) mod 33. -/
theorem encrypt_position_formula_witness :
    (['А', 'В', 'В', 'Д', 'Д', 'Ё'] : List Char).getD 5 'А' =
      numAlpha.getD (((convert ['А', 'Б', 'В', 'Г', 'Д', 'Е']).getD 5 0
        + ([0, 1] : List Nat).getD (5 % ([0, 1] : List Nat).length) 0) % 33) 'А' :=
  (encrypt_position_formula ⟨[0, 1]⟩ ['А', 'Б', 'В', 'Г', 'Д', 'Е']
    ['А', 'Б', 'В', 'Г', 'Д', 'Е'] ['А', 'В', 'В', 'Д', 'Д', 'Ё']
    (by rfl) (by rfl)).2 5 (by decide)

/-- Claim C3: decrypt computes at each position i the index
(c[i] - key[i mod key.length] + 33) mod 33, the added modulus correcting a
possibly negative subtraction, and every resulting index lies in [0, 32]
before the reverse alphabet lookup. -/
theorem decrypt_position_formula (ciph : modAlphaCipher) (x t s : List Char)
    (ht : getValidCipherText x = .ok t) (hs : decrypt ciph x = .ok s) :
    s.length = t.length ∧ ∀ i, i < t.length →
      ((((convert t).getD i 0 : Int)
        - (ciph.key.getD (i % ciph.key.length) 0 : Int) + 33) % 33).toNat < 33 ∧
      s.getD i 'А' =
        numAlpha.getD (((((convert t).getD i 0 : Int)
          - (ciph.key.getD (i % ciph.key.length) 0 : Int) + 33) % 33).toNat) 'А' := by
  rw [decrypt, ht] at hs
  have hs2 : Except.ok (convertBack (decVals ciph.key 0 (convert t))) = Except.ok s := hs
  have hsv : s = convertBack (decVals ciph.key 0 (convert t)) := (Except.ok.inj hs2).symm
  subst hsv
  constructor
  · rw [convertBack_length, decVals_length, convert_length]
  · intro i hi
    have hi2 : i < (decVals ciph.key 0 (convert t)).length := by
      rw [decVals_length, convert_length]
      exact hi
    refine ⟨by omega, ?_⟩
    rw [convertBack_getD _ _ hi2,
      decVals_getD ciph.key (convert t) 0 i (by rw [convert_length]; exact hi)]
    simp only [Nat.zero_add, numAlpha_length]
    norm_num

/-- Witness for C3: with the two-letter key АБ on the ciphertext АВВДДЁ,
the decrypted character at position 5 is the alphabet letter at index
(c[5] - key[5 mod 2] + 33) mod 33, and that index is below 33. -/
theorem decrypt_position_formula_witness :
    ((((convert ['А', 'В', 'В', 'Д', 'Д', 'Ё']).getD 5 0 : Int)
      - (([0, 1] : List Nat).getD (5 % ([0, 1] : List Nat).length) 0 : Int) + 33) % 33).toNat < 33 ∧
    (['А', 'Б', 'В', 'Г', 'Д', 'Е'] : List Char).getD 5 'А' =
      numAlpha.getD (((((convert ['А', 'В', 'В', 'Д', 'Д', 'Ё']).getD 5 0 : Int)
        - (([0, 1] : List Nat).getD (5 % ([0, 1] : List Nat).length) 0 : Int) + 33) % 33).toNat) 'А' :=
  (decrypt_position_formula ⟨[0, 1]⟩ ['А', 'В', 'В', 'Д', 'Д', 'Ё']
    ['А', 'В', 'В', 'Д', 'Д', 'Ё'] ['А', 'Б', 'В', 'Г', 'Д', 'Е']
    (by rfl) (by rfl)).2 5 (by decide)

/-- Claim C4: constructing a cipher signals InvalidKey exactly when the key
text is empty after uppercase normalization or contains a character whose
uppercase form is not in the 33-letter alphabet; any construction error is
of the InvalidKey kind, and on success the instance holds the alphabet
indices of the normalized key characters. -/
theorem mkModAlphaCipher_spec (skey : List Char) :
    ((∃ m, mkModAlphaCipher skey = .error (.invalidKey m)) ↔
      (skey.map toWUpper = [] ∨ ∃ c ∈ skey, toWUpper c ∉ numAlpha)) ∧
    ((∃ e, mkModAlphaCipher skey = .error e) →
      ∃ m, mkModAlphaCipher skey = .error (.invalidKey m)) ∧
    ∀ ciph, mkModAlphaCipher skey = .ok ciph → ciph.key = convert (skey.map toWUpper) := by
  have hme : ∀ e, mkModAlphaCipher skey = .error e ↔ getValidKey skey = .error e := by
    intro e
    rw [mkModAlphaCipher]
    exact except_map_error_iff _ _ e
  refine ⟨⟨?_, ?_⟩, ?_, ?_⟩
  · rintro ⟨m, hm⟩
    rw [hme] at hm
    rcases (getValidKey_error_iff _ _).mp hm with ⟨he, _⟩ | ⟨_, hex, _⟩
    · exact Or.inl (by simp [he])
    · exact Or.inr hex
  · intro hcase
    by_cases hemp : skey = []
    · exact ⟨"Empty key", (hme _).mpr ((getValidKey_error_iff _ _).mpr (Or.inl ⟨hemp, rfl⟩))⟩
    · have hex : ∃ c ∈ skey, toWUpper c ∉ numAlpha := by
        rcases hcase with he | hex
        · exact absurd (List.map_eq_nil_iff.mp he) hemp
        · exact hex
      exact ⟨"Invalid key",
        (hme _).mpr ((getValidKey_error_iff _ _).mpr (Or.inr ⟨hemp, hex, rfl⟩))⟩
  · rintro ⟨e, he⟩
    rw [hme] at he
    rcases (getValidKey_error_iff _ _).mp he with ⟨_, hek⟩ | ⟨_, _, hek⟩
    · exact ⟨"Empty key", (hme _).mpr (hek ▸ he)⟩
    · exact ⟨"Invalid key", (hme _).mpr (hek ▸ he)⟩
  · intro ciph hok
    exact (mkModAlphaCipher_ok skey ciph hok).1

/-- Witness for C4: the cipher built from the lowercase key ключ holds the
alphabet indices 11, 12, 31, 24 of its normalized form КЛЮЧ. -/
theorem mkModAlphaCipher_spec_witness :
    (⟨[11, 12, 31, 24]⟩ : modAlphaCipher).key = convert (['к', 'л', 'ю', 'ч'].map toWUpper) :=
  (mkModAlphaCipher_spec ['к', 'л', 'ю', 'ч']).2.2 ⟨[11, 12, 31, 24]⟩ (by rfl)

/-- Claim C5: encrypt signals InvalidPlainText, and decrypt signals
InvalidCipherText, exactly when the input is empty or contains a character
whose uppercase form is outside the alphabet; every failure of encrypt is
of the InvalidPlainText kind and every failure of decrypt of the
InvalidCipherText kind, and a failing call produces no output text. -/
theorem encrypt_decrypt_validation (ciph : modAlphaCipher) (ws : List Char) :
    ((∃ m, encrypt ciph ws = .error (.invalidPlainText m)) ↔
      (ws = [] ∨ ∃ c ∈ ws, toWUpper c ∉ numAlpha)) ∧
    ((∃ m, decrypt ciph ws = .error (.invalidCipherText m)) ↔
      (ws = [] ∨ ∃ c ∈ ws, toWUpper c ∉ numAlpha)) ∧
    (∀ e, encrypt ciph ws = .error e → ∃ m, e = .invalidPlainText m) ∧
    (∀ e, decrypt ciph ws = .error e → ∃ m, e = .invalidCipherText m) := by
  have hee : ∀ e, encrypt ciph ws = .error e ↔ getValidOpenText ws = .error e := by
    intro e
    rw [encrypt]
    exact except_map_error_iff _ _ e
  have hde : ∀ e, decrypt ciph ws = .error e ↔ getValidCipherText ws = .error e := by
    intro e
    rw [decrypt]
    exact except_map_error_iff _ _ e
  refine ⟨⟨?_, ?_⟩, ⟨?_, ?_⟩, ?_, ?_⟩
  · rintro ⟨m, hm⟩
    rw [hee] at hm
    rcases (getValidOpenText_error_iff _ _).mp hm with ⟨he, _⟩ | ⟨_, hex, _⟩
    · exact Or.inl he
    · exact Or.inr hex
  · intro hcase
    by_cases hemp : ws = []
    · exact ⟨"Empty open text",
        (hee _).mpr ((getValidOpenText_error_iff _ _).mpr (Or.inl ⟨hemp, rfl⟩))⟩
    · have hex : ∃ c ∈ ws, toWUpper c ∉ numAlpha := by
        rcases hcase with he | hex
        · exact absurd he hemp
        · exact hex
      exact ⟨"Invalid open text",
        (hee _).mpr ((getValidOpenText_error_iff _ _).mpr (Or.inr ⟨hemp, hex, rfl⟩))⟩
  · rintro ⟨m, hm⟩
    rw [hde] at hm
    rcases (getValidCipherText_error_iff _ _).mp hm with ⟨he, _⟩ | ⟨_, hex, _⟩
    · exact Or.inl he
    · exact Or.inr hex
  · intro hcase
    by_cases hemp : ws = []
    · exact ⟨"Empty cipher text",
        (hde _).mpr ((getValidCipherText_error_iff _ _).mpr (Or.inl ⟨hemp, rfl⟩))⟩
    · have hex : ∃ c ∈ ws, toWUpper c ∉ numAlpha := by
        rcases hcase with he | hex
        · exact absurd he hemp
        · exact hex
      exact ⟨"Invalid cipher text",
        (hde _).mpr ((getValidCipherText_error_iff _ _).mpr (Or.inr ⟨hemp, hex, rfl⟩))⟩
  · intro e he
    rw [hee] at he
    rcases (getValidOpenText_error_iff _ _).mp he with ⟨_, hek⟩ | ⟨_, _, hek⟩
    · exact ⟨_, hek⟩
    · exact ⟨_, hek⟩
  · intro e he
    rw [hde] at he
    rcases (getValidCipherText_error_iff _ _).mp he with ⟨_, hek⟩ | ⟨_, _, hek⟩
    · exact ⟨_, hek⟩
    · exact ⟨_, hek⟩

/-- Witness for C5: encrypting a text containing a space fails with an
InvalidPlainText error. -/
theorem encrypt_decrypt_validation_witness :
    ∃ m, encrypt ⟨[0]⟩ [' '] = .error (.invalidPlainText m) :=
  (encrypt_decrypt_validation ⟨[0]⟩ [' ']).1.mpr (Or.inr ⟨' ', by decide, by decide⟩)

/-- Claim C6: errors form a closed enumeration of exactly three
distinguishable kinds (InvalidKey, InvalidPlainText, InvalidCipherText),
each carrying a human-readable message, so a caller can tell from the
returned error which of the three failures occurred. -/
theorem cipherError_enumeration :
    (∀ e : CipherError, (∃ m, e = .invalidKey m) ∨ (∃ m, e = .invalidPlainText m) ∨
      (∃ m, e = .invalidCipherText m)) ∧
    (∀ m m' : String,
      CipherError.invalidKey m ≠ CipherError.invalidPlainText m' ∧
      CipherError.invalidKey m ≠ CipherError.invalidCipherText m' ∧
      CipherError.invalidPlainText m ≠ CipherError.invalidCipherText m') ∧
    (∀ m : String, (CipherError.invalidKey m).message = m ∧
      (CipherError.invalidPlainText m).message = m ∧
      (CipherError.invalidCipherText m).message = m) := by
  refine ⟨?_, ?_, ?_⟩
  · intro e
    cases e with
    | invalidKey m => exact Or.inl ⟨m, rfl⟩
    | invalidPlainText m => exact Or.inr (Or.inl ⟨m, rfl⟩)
    | invalidCipherText m => exact Or.inr (Or.inr ⟨m, rfl⟩)
  · intro m m'
    refine ⟨fun h => ?_, fun h => ?_, fun h => ?_⟩ <;> cases h
  · intro m
    exact ⟨rfl, rfl, rfl⟩

/-- Witness for C6: the message of an InvalidKey error is readable back. -/
theorem cipherError_enumeration_witness :
    (CipherError.invalidKey "Invalid key").message = "Invalid key" :=
  (cipherError_enumeration.2.2 "Invalid key").1

/-- Claim C7: the output of a successful encrypt has the same length as
the input text, and likewise for decrypt, and the output consists of
uppercase alphabet letters only. -/
theorem length_preservation (ciph : modAlphaCipher) (x s : List Char) :
    (encrypt ciph x = .ok s → s.length = x.length ∧ ∀ c ∈ s, c ∈ numAlpha) ∧
    (decrypt ciph x = .ok s → s.length = x.length ∧ ∀ c ∈ s, c ∈ numAlpha) := by
  constructor
  · intro hs
    rw [encrypt] at hs
    rcases (except_map_ok_iff _ _ _).mp hs with ⟨t, ht, hst⟩
    rcases (getValidOpenText_ok_iff _ _).mp ht with ⟨_, _, htval⟩
    subst hst
    constructor
    · rw [convertBack_length, encVals_length, convert_length, htval, List.length_map]
    · apply convertBack_mem
      intro y hy
      have h2 := encVals_lt ciph.key 0 (convert t) y hy
      rwa [numAlpha_length] at h2
  · intro hs
    rw [decrypt] at hs
    rcases (except_map_ok_iff _ _ _).mp hs with ⟨t, ht, hst⟩
    rcases (getValidCipherText_ok_iff _ _).mp ht with ⟨_, _, htval⟩
    subst hst
    constructor
    · rw [convertBack_length, decVals_length, convert_length, htval, List.length_map]
    · apply convertBack_mem
      intro y hy
      have h2 := decVals_lt ciph.key 0 (convert t) y hy
      rwa [numAlpha_length] at h2

/-- Witness for C7: encrypting the two-letter text на with the key АБ
yields the two-letter alphabet-only text НБ. -/
theorem length_preservation_witness :
    (['Н', 'Б'] : List Char).length = (['н', 'а'] : List Char).length ∧
      ∀ c ∈ (['Н', 'Б'] : List Char), c ∈ numAlpha :=
  (length_preservation ⟨[0, 1]⟩ ['н', 'а'] ['Н', 'Б']).1 (by rfl)

/-- Claim C8: encryption is case-insensitive on input: for the same cipher
instance, encrypting a text and encrypting its uppercase normalization
produce identical output. -/
theorem encrypt_case_insensitive (ciph : modAlphaCipher) (x : List Char) :
    encrypt ciph x = encrypt ciph (x.map toWUpper) := by
  have hmap : (x.map toWUpper).map toWUpper = x.map toWUpper := by
    rw [List.map_map]
    exact List.map_congr_left fun a _ => toWUpper_idem a
  simp only [encrypt, getValidOpenText, hmap]

/-- Witness for C8: encrypting the lowercase привет equals encrypting its
uppercase form with the key КЛЮЧ. -/
theorem encrypt_case_insensitive_witness :
    encrypt ⟨[11, 12, 31, 24]⟩ ['п', 'р', 'и', 'в', 'е', 'т'] =
      encrypt ⟨[11, 12, 31, 24]⟩ (['п', 'р', 'и', 'в', 'е', 'т'].map toWUpper) :=
  encrypt_case_insensitive ⟨[11, 12, 31, 24]⟩ ['п', 'р', 'и', 'в', 'е', 'т']

/-- Claim C9: the alphabet is a fixed ordered sequence of exactly 33
distinct Cyrillic uppercase letters (А through Я including Ё) and the
letter-to-index mapping is a bijection between these letters and the
positions 0..32 that agrees with the ordered alphabet string. -/
theorem alphabet_bijection :
    numAlpha.length = 33 ∧ numAlpha.Nodup ∧
    (∀ i, i < 33 → alphaNum (numAlpha.getD i 'А') = i) ∧
    (∀ c ∈ numAlpha, numAlpha.getD (alphaNum c) 'А' = c) ∧
    (∀ c ∈ numAlpha, alphaNum c < 33) :=
  ⟨numAlpha_length, by decide, alphaNum_getD, getD_alphaNum, fun c hc => alphaNum_lt c hc⟩

/-- Witness for C9: the letter Ё at position 6 maps to index 6 and back. -/
theorem alphabet_bijection_witness :
    alphaNum (numAlpha.getD 6 'А') = 6 ∧ numAlpha.getD (alphaNum 'Ё') 'А' = 'Ё' :=
  ⟨alphabet_bijection.2.2.1 6 (by decide), alphabet_bijection.2.2.2.1 'Ё' (by decide)⟩

/-- Claim C10: every reachable cipher instance has a non-empty key whose
elements all lie in [0, 32], so the modulus key.length in the cyclic key
access is never zero, every key access at i mod key.length is in bounds,
and every transform output is a valid reverse alphabet lookup index. -/
theorem cipher_key_safety (skey : List Char) (ciph : modAlphaCipher)
    (hc : mkModAlphaCipher skey = .ok ciph) :
    ciph.key ≠ [] ∧ 0 < ciph.key.length ∧ (∀ k ∈ ciph.key, k < 33) ∧
    (∀ i : Nat, i % ciph.key.length < ciph.key.length) ∧
    (∀ (i : Nat) (v : List Nat), ∀ y ∈ encVals ciph.key i v, y < numAlpha.length) ∧
    (∀ (i : Nat) (v : List Nat), ∀ y ∈ decVals ciph.key i v, y < numAlpha.length) := by
  rcases mkModAlphaCipher_ok skey ciph hc with ⟨_, hkne, hklt⟩
  have hpos : 0 < ciph.key.length := List.length_pos.mpr hkne
  exact ⟨hkne, hpos, hklt, fun i => Nat.mod_lt _ hpos,
    fun i v => encVals_lt ciph.key i v, fun i v => decVals_lt ciph.key i v⟩

/-- Witness for C10: for the cipher built from КЛЮЧ, the cyclic key index
7 mod key.length is in bounds. -/
theorem cipher_key_safety_witness :
    (7 : Nat) % (⟨[11, 12, 31, 24]⟩ : modAlphaCipher).key.length
      < (⟨[11, 12, 31, 24]⟩ : modAlphaCipher).key.length :=
  (cipher_key_safety ['К', 'Л', 'Ю', 'Ч'] ⟨[11, 12, 31, 24]⟩ (by rfl)).2.2.2.1 7
